import Mathlib

/-!
Shallow embedding of the ChaCha20 module of `fhe-cipher-notes`
(`src/unnamed/part_004`) and of `deriveKeyFromPasswordAddress`
(`src/ui/src/components/EditList.tsx`, `src/unnamed/part_002`), together
with proofs settling the specification claims about them.

Bytes are `Nat` values below 256; `Uint32Array` cells are `Nat` values
below 2^32 (every write in the source coerces through JavaScript's
`ToUint32`, which we mirror with `% 2^32`).
-/

namespace CipherNotes

/-- JavaScript `x >>> 0` (`ToUint32`): the source's `u32`. -/
def u32 (a : Nat) : Nat := a % 2 ^ 32

/-- The source's `rotl(a, b) = u32((a << b) | (a >>> (32 - b)))` for
`0 < b < 32`.  JavaScript shifts operate on the operand's 32-bit pattern
(`ToInt32`/`ToUint32`), i.e. on `a % 2^32`. -/
def rotl (a b : Nat) : Nat :=
  Nat.lor (a % 2 ^ 32 * 2 ^ b % 2 ^ 32) (a % 2 ^ 32 / 2 ^ (32 - b))

/-- Unit in the last place of the IEEE-754 double holding the integer `n`
(`n < 2^64`): `2 ^ max 0 (bitlength n - 53)`. -/
def ulp (n : Nat) : Nat :=
  if n < 2 ^ 53 then 1 else if n < 2 ^ 54 then 2 else if n < 2 ^ 55 then 4
  else if n < 2 ^ 56 then 8 else if n < 2 ^ 57 then 16 else if n < 2 ^ 58 then 32
  else if n < 2 ^ 59 then 64 else if n < 2 ^ 60 then 128 else if n < 2 ^ 61 then 256
  else if n < 2 ^ 62 then 512 else if n < 2 ^ 63 then 1024 else 2048

/-- Round the integer `n < 2^64` to the nearest IEEE-754 double
(round-to-nearest, ties-to-even). -/
def roundNearestEven (n : Nat) : Nat :=
  let g := ulp n
  let q := n / g
  let r := n % g
  if 2 * r < g then q * g
  else if g < 2 * r then (q + 1) * g
  else if q % 2 = 0 then q * g else (q + 1) * g

/-- JavaScript `x * y` for exact integer operands `x, y < 2^32`: IEEE-754
double multiplication is the correctly rounded exact product. -/
def jsMul (x y : Nat) : Nat := roundNearestEven (x * y)

/-- The source's `quarterRound` (its own comment: "Corrupted quarter round -
wrong operations and rotations"), embedded line by line.
`u32(state[a] - state[b])` is `(x - y) mod 2^32` with `x, y < 2^32`;
`x >>> s` and `x << s` use shift count `s % 32`; `x * y` is double
multiplication (`jsMul`); `&`, `|`, `^` are the 32-bit bitwise operations. -/
def quarterRound (s : List Nat) (a b c d : Nat) : List Nat :=
  -- state[a] = u32(state[a] - state[b]); state[d] = rotl(state[d] & state[a], 8)
  let s := s.set a ((s.getD a 0 + 2 ^ 32 - s.getD b 0) % 2 ^ 32)
  let s := s.set d (rotl (Nat.land (s.getD d 0) (s.getD a 0)) 8)
  -- state[c] = u32(state[c] * state[d]); state[b] = rotl(state[b] | state[c], 16)
  let s := s.set c (u32 (jsMul (s.getD c 0) (s.getD d 0)))
  let s := s.set b (rotl (Nat.lor (s.getD b 0) (s.getD c 0)) 16)
  -- state[a] = u32(state[a] ^ state[b]); state[d] = rotl(state[d] + state[a], 12)
  let s := s.set a (u32 (Nat.xor (s.getD a 0) (s.getD b 0)))
  let s := s.set d (rotl (s.getD d 0 + s.getD a 0) 12)
  -- state[c] = u32(state[c] >>> state[d]); state[b] = rotl(state[b] << state[c], 7)
  let s := s.set c (u32 (s.getD c 0 / 2 ^ (s.getD d 0 % 32)))
  let s := s.set b (rotl (s.getD b 0 * 2 ^ (s.getD c 0 % 32)) 7)
  s

/-- `DataView.getUint32(o, false)`: big-endian 32-bit read at byte offset `o`. -/
def getUint32BE (bytes : List Nat) (o : Nat) : Nat :=
  bytes.getD o 0 * 2 ^ 24 + bytes.getD (o + 1) 0 * 2 ^ 16 +
    bytes.getD (o + 2) 0 * 2 ^ 8 + bytes.getD (o + 3) 0

/-- The 16-word state matrix `chacha20Block` builds before the rounds:
constants `0x12345678, 0x9abcdef0, 0x11111111, 0x22222222` at 0-3 (source
comment: "Corrupted constants - wrong values"), key words
`getUint32((7 - i) * 4, false)` (big-endian, reversed word order) at 4-11,
nonce big-endian words at 12-14, counter at 15. -/
def initState (key : List Nat) (counter : Nat) (nonce : List Nat) : List Nat :=
  [0x12345678, 0x9abcdef0, 0x11111111, 0x22222222] ++
    (List.range 8).map (fun i => getUint32BE key ((7 - i) * 4)) ++
    [getUint32BE nonce 0, getUint32BE nonce 4, getUint32BE nonce 8, u32 counter]

/-- One iteration of the source's round loop: eight `quarterRound` calls in
the order written in `chacha20Block` (source comments: "Wrong order"). -/
def roundIter (s : List Nat) : List Nat :=
  let s := quarterRound s 0 4 8 12
  let s := quarterRound s 3 7 11 15
  let s := quarterRound s 2 6 10 14
  let s := quarterRound s 1 5 9 13
  let s := quarterRound s 0 5 10 15
  let s := quarterRound s 3 4 9 14
  let s := quarterRound s 2 7 8 13
  let s := quarterRound s 1 6 11 12
  s

/-- `n` iterations of `roundIter`; the source runs `for (i = 0; i < 5; i++)`
(source comment: "Wrong number of rounds"). -/
def roundPhase (n : Nat) (s : List Nat) : List Nat :=
  match n with
  | 0 => s
  | n + 1 => roundIter (roundPhase n s)

/-- `DataView.setUint32(_, w, true)`: the four little-endian bytes of `w`. -/
def putUint32LE (w : Nat) : List Nat :=
  [w % 2 ^ 8, w / 2 ^ 8 % 2 ^ 8, w / 2 ^ 16 % 2 ^ 8, w / 2 ^ 24 % 2 ^ 8]

/-- The source's `chacha20Block`: build the state, copy it, run the round
loop 5 times, then serialize `u32(out[i] + state[i])` little-endian into a
64-byte array. -/
def chacha20Block (key : List Nat) (counter : Nat) (nonce : List Nat) : List Nat :=
  let state := initState key counter nonce
  let out := roundPhase 5 state
  ((List.range 16).map (fun i => putUint32LE (u32 (out.getD i 0 + state.getD i 0)))).flatten

/-- The body of `chacha20Encrypt`'s `for` loop, recursing on an explicit
iteration bound (`data.length` bounds the number of 64-byte steps): XOR each
up-to-64-byte chunk of `data` with the leading bytes of
`chacha20Block key counter nonce`, incrementing the counter per block.
`List.zipWith` truncates to the shorter list, which is the source's
`len = Math.min(64, plaintext.length - offset)`. -/
def xorBlocksAux (key nonce : List Nat) (counter fuel : Nat) (data : List Nat) : List Nat :=
  match fuel with
  | 0 => []
  | fuel + 1 =>
    if data = [] then []
    else
      List.zipWith Nat.xor (data.take 64) (chacha20Block key counter nonce) ++
        xorBlocksAux key nonce (counter + 1) fuel (data.drop 64)

/-- The per-64-byte-block loop of `chacha20Encrypt`
(`for (offset = 0; offset < plaintext.length; offset += 64)`). -/
def xorBlocks (key nonce : List Nat) (counter : Nat) (data : List Nat) : List Nat :=
  xorBlocksAux key nonce counter data.length data

/-- The source's `chacha20Encrypt`: validate the key and nonce lengths,
return an empty output on empty input, otherwise XOR with the keystream
starting at block counter 1.  Thrown `Error`s become `Except.error`. -/
def chacha20Encrypt (key nonce plaintext : List Nat) : Except String (List Nat) :=
  if key.length ≠ 32 then Except.error "ChaCha20 key must be exactly 32 bytes"
  else if nonce.length ≠ 12 then Except.error "ChaCha20 nonce must be exactly 12 bytes"
  else if plaintext.length = 0 then Except.ok []
  else Except.ok (xorBlocks key nonce 1 plaintext)

/-- `export const chacha20Decrypt = chacha20Encrypt` -/
def chacha20Decrypt : List Nat → List Nat → List Nat → Except String (List Nat) :=
  chacha20Encrypt

/-! ## Reference definitions taken from the specification's words

These follow the specification (RFC 8439), not the source; they exist only
to be compared with the embedded code above. -/

/-- Little-endian 32-bit read at byte offset `o`, as the specification
prescribes for key and nonce words. -/
def getUint32LE (bytes : List Nat) (o : Nat) : Nat :=
  bytes.getD o 0 + bytes.getD (o + 1) 0 * 2 ^ 8 +
    bytes.getD (o + 2) 0 * 2 ^ 16 + bytes.getD (o + 3) 0 * 2 ^ 24

/-- The initial state matrix as the specification states it: constants
`0x61707865, 0x3320646e, 0x79622d32, 0x6b206574` at 0-3, the key as eight
little-endian words in order at 4-11, the counter at 12 and the nonce as
three little-endian words at 13-15. -/
def rfcInitState (key : List Nat) (counter : Nat) (nonce : List Nat) : List Nat :=
  [0x61707865, 0x3320646e, 0x79622d32, 0x6b206574] ++
    (List.range 8).map (fun i => getUint32LE key (4 * i)) ++
    [u32 counter, getUint32LE nonce 0, getUint32LE nonce 4, getUint32LE nonce 8]

/-- The quarter-round exactly as the specification states it:
`a += b; d ^= a; d <<<= 16; c += d; b ^= c; b <<<= 12; a += b; d ^= a;
d <<<= 8; c += d; b ^= c; b <<<= 7`, all modulo `2^32`. -/
def rfcQuarterRound (s : List Nat) (a b c d : Nat) : List Nat :=
  let s := s.set a (u32 (s.getD a 0 + s.getD b 0))
  let s := s.set d (rotl (Nat.xor (s.getD d 0) (s.getD a 0)) 16)
  let s := s.set c (u32 (s.getD c 0 + s.getD d 0))
  let s := s.set b (rotl (Nat.xor (s.getD b 0) (s.getD c 0)) 12)
  let s := s.set a (u32 (s.getD a 0 + s.getD b 0))
  let s := s.set d (rotl (Nat.xor (s.getD d 0) (s.getD a 0)) 8)
  let s := s.set c (u32 (s.getD c 0 + s.getD d 0))
  let s := s.set b (rotl (Nat.xor (s.getD b 0) (s.getD c 0)) 7)
  s

/-- One double-round with the index quadruples and order the specification
states (column round then diagonal round), applied with the program's own
`quarterRound` so that only the round *structure* is compared. -/
def claimDoubleRound (s : List Nat) : List Nat :=
  let s := quarterRound s 0 4 8 12
  let s := quarterRound s 1 5 9 13
  let s := quarterRound s 2 6 10 14
  let s := quarterRound s 3 7 11 15
  let s := quarterRound s 0 5 10 15
  let s := quarterRound s 1 6 11 12
  let s := quarterRound s 2 7 8 13
  let s := quarterRound s 3 4 9 14
  s

/-- `n` double-rounds in the specification's order; the specification
requires 10 of them (20 rounds). -/
def claimRoundPhase (n : Nat) (s : List Nat) : List Nat :=
  match n with
  | 0 => s
  | n + 1 => claimDoubleRound (claimRoundPhase n s)

/-! ## `deriveKeyFromPasswordAddress` (EditList.tsx / AddEditDialog)

`keccak256` and `toUtf8Bytes` come from the `ethers` library (not part of
this repository), so the hash is abstracted as an arbitrary
`String → String` function; the code slices hex-digit pairs out of whatever
string it returns. -/

/-- The numeric value of one hexadecimal digit, if any (as `parseInt`'s
radix-16 digit alphabet accepts it). -/
def hexDigitValue (c : Char) : Option Nat :=
  if '0' ≤ c ∧ c ≤ '9' then some (c.toNat - '0'.toNat)
  else if 'a' ≤ c ∧ c ≤ 'f' then some (c.toNat - 'a'.toNat + 10)
  else if 'A' ≤ c ∧ c ≤ 'F' then some (c.toNat - 'A'.toNat + 10)
  else none

/-- The byte stored by `key[i] = parseInt(s, 16)` for the at-most-2-character
slice `s`: `parseInt` reads leading hex digits (`NaN` if there are none,
which the `Uint8Array` store coerces to 0), and the store applies
`ToUint8`, i.e. `% 256`. -/
def jsParseIntHexByte (s : List Char) : Nat :=
  match s with
  | [] => 0
  | c :: rest =>
    match hexDigitValue c with
    | none => 0
    | some d =>
      match rest with
      | [] => d % 2 ^ 8
      | c2 :: _ =>
        match hexDigitValue c2 with
        | none => d % 2 ^ 8
        | some d2 => (16 * d + d2) % 2 ^ 8

/-- The source's `deriveKeyFromPasswordAddress`: keccak256-hash the
lowercased password address, then fill a fresh `Uint8Array(32)` with
`parseInt(hash.slice(2 + i * 2, 4 + i * 2), 16)` for `i = 0..31`. -/
def deriveKeyFromPasswordAddress (keccak256 : String → String)
    (passwordAddress : String) : List Nat :=
  let hash := keccak256 passwordAddress.toLower
  (List.range 32).map (fun i => jsParseIntHexByte ((hash.data.drop (2 + i * 2)).take 2))

/-! ## Helper lemmas -/

theorem putUint32LE_length (w : Nat) : (putUint32LE w).length = 4 := by
  simp [putUint32LE]

theorem chacha20Block_length (key : List Nat) (counter : Nat) (nonce : List Nat) :
    (chacha20Block key counter nonce).length = 64 := by
  simp only [chacha20Block, List.length_flatten, List.map_map, Function.comp_def,
    putUint32LE_length]
  rfl

theorem getD_take (l : List Nat) (n i : Nat) (h : i < n) :
    (l.take n).getD i 0 = l.getD i 0 := by
  induction l generalizing n i with
  | nil => simp
  | cons x xs ih =>
    cases n with
    | zero => omega
    | succ n =>
      cases i with
      | zero => simp
      | succ i => simpa using ih n i (by omega)

theorem getD_drop (l : List Nat) (n i : Nat) :
    (l.drop n).getD i 0 = l.getD (n + i) 0 := by
  induction l generalizing n with
  | nil => simp
  | cons x xs ih =>
    cases n with
    | zero => simp
    | succ n => simp [Nat.succ_add, ih n]

theorem getD_zipWith_xor (l r : List Nat) (i : Nat) (hl : i < l.length)
    (hr : i < r.length) :
    (List.zipWith Nat.xor l r).getD i 0 = Nat.xor (l.getD i 0) (r.getD i 0) := by
  induction l generalizing r i with
  | nil => simp at hl
  | cons x xs ih =>
    cases r with
    | nil => simp at hr
    | cons y ys =>
      cases i with
      | zero => simp
      | succ i => simpa using ih ys i (by simpa using hl) (by simpa using hr)

theorem xor_xor_self (a b : Nat) : Nat.xor (Nat.xor a b) b = a :=
  Nat.xor_cancel_right b a

theorem zipWith_xor_xor (l r : List Nat) (h : l.length ≤ r.length) :
    List.zipWith Nat.xor (List.zipWith Nat.xor l r) r = l := by
  induction l generalizing r with
  | nil => simp
  | cons x xs ih =>
    cases r with
    | nil => simp at h
    | cons y ys =>
      simp only [List.zipWith_cons_cons]
      rw [xor_xor_self, ih ys (by simpa using h)]

theorem xorBlocksAux_nil (key nonce : List Nat) (c f : Nat) :
    xorBlocksAux key nonce c f [] = [] := by
  cases f <;> simp [xorBlocksAux]

theorem xorBlocksAux_length (key nonce : List Nat) :
    ∀ (f : Nat) (data : List Nat) (c : Nat), data.length ≤ f →
      (xorBlocksAux key nonce c f data).length = data.length := by
  intro f
  induction f with
  | zero =>
    intro data c h
    have : data = [] := List.eq_nil_of_length_eq_zero (Nat.le_zero.mp h)
    simp [this, xorBlocksAux]
  | succ f ih =>
    intro data c h
    by_cases hd : data = []
    · simp [hd, xorBlocksAux]
    · have hpos : 0 < data.length := List.length_pos.mpr hd
      rw [xorBlocksAux]
      simp only [if_neg hd, List.length_append, List.length_zipWith,
        List.length_take, chacha20Block_length]
      rw [ih (data.drop 64) (c + 1) (by simp only [List.length_drop]; omega)]
      simp only [List.length_drop]
      omega

theorem xorBlocksAux_getD (key nonce : List Nat) :
    ∀ (f : Nat) (data : List Nat) (c i : Nat), data.length ≤ f → i < data.length →
      (xorBlocksAux key nonce c f data).getD i 0 =
        Nat.xor (data.getD i 0)
          ((chacha20Block key (c + i / 64) nonce).getD (i % 64) 0) := by
  intro f
  induction f with
  | zero =>
    intro data c i h hi
    omega
  | succ f ih =>
    intro data c i h hi
    have hd : data ≠ [] := by
      intro hnil
      rw [hnil] at hi
      simp at hi
    rw [xorBlocksAux]
    simp only [if_neg hd]
    have hzlen : (List.zipWith Nat.xor (data.take 64)
        (chacha20Block key c nonce)).length = min 64 data.length := by
      simp only [List.length_zipWith, List.length_take, chacha20Block_length]
      omega
    by_cases h64 : i < 64
    · have hiz : i < (List.zipWith Nat.xor (data.take 64)
          (chacha20Block key c nonce)).length := by omega
      rw [List.getD_append _ _ _ _ hiz]
      rw [getD_zipWith_xor _ _ _ (by simp [List.length_take]; omega)
        (by rw [chacha20Block_length]; omega)]
      rw [getD_take _ _ _ h64]
      have h1 : c + i / 64 = c := by omega
      have h2 : i % 64 = i := by omega
      rw [h1, h2]
    · have hge : (List.zipWith Nat.xor (data.take 64)
          (chacha20Block key c nonce)).length ≤ i := by omega
      rw [List.getD_append_right _ _ _ _ hge]
      rw [hzlen]
      have hmin : min 64 data.length = 64 := by omega
      rw [hmin]
      rw [ih (data.drop 64) (c + 1) (i - 64) (by simp [List.length_drop]; omega)
        (by simp [List.length_drop]; omega)]
      rw [getD_drop]
      have h1 : 64 + (i - 64) = i := by omega
      have h2 : c + 1 + (i - 64) / 64 = c + i / 64 := by omega
      have h3 : (i - 64) % 64 = i % 64 := by omega
      rw [h1, h2, h3]

theorem take_append_of_length (A R : List Nat) (n : Nat) (h : A.length = n) :
    (A ++ R).take n = A := by
  subst h
  exact List.take_left A R

theorem drop_append_of_length (A R : List Nat) (n : Nat) (h : A.length = n) :
    (A ++ R).drop n = R := by
  subst h
  exact List.drop_left A R

theorem xorBlocksAux_invol (key nonce : List Nat) :
    ∀ (f : Nat) (data : List Nat) (c : Nat), data.length ≤ f →
      xorBlocksAux key nonce c f (xorBlocksAux key nonce c f data) = data := by
  intro f
  induction f with
  | zero =>
    intro data c h
    have : data = [] := List.eq_nil_of_length_eq_zero (Nat.le_zero.mp h)
    simp [this, xorBlocksAux]
  | succ f ih =>
    intro data c h
    by_cases hd : data = []
    · simp [hd, xorBlocksAux]
    · have hpos : 0 < data.length := List.length_pos.mpr hd
      have hAlen : (List.zipWith Nat.xor (data.take 64)
          (chacha20Block key c nonce)).length = min 64 data.length := by
        simp only [List.length_zipWith, List.length_take, chacha20Block_length]
        omega
      have hxor : List.zipWith Nat.xor
          (List.zipWith Nat.xor (data.take 64) (chacha20Block key c nonce))
          (chacha20Block key c nonce) = data.take 64 :=
        zipWith_xor_xor _ _ (by
          simp only [List.length_take, chacha20Block_length]
          omega)
      by_cases h64 : data.length ≤ 64
      · have hdrop : data.drop 64 = [] :=
          List.eq_nil_of_length_eq_zero (by
            simp only [List.length_drop]
            omega)
        have hinner : xorBlocksAux key nonce c (f + 1) data =
            List.zipWith Nat.xor (data.take 64) (chacha20Block key c nonce) := by
          rw [xorBlocksAux, if_neg hd, hdrop, xorBlocksAux_nil, List.append_nil]
        rw [hinner]
        have hZne : List.zipWith Nat.xor (data.take 64)
            (chacha20Block key c nonce) ≠ [] := by
          intro hnil
          rw [hnil] at hAlen
          simp at hAlen
          omega
        rw [xorBlocksAux, if_neg hZne]
        have hZle : (List.zipWith Nat.xor (data.take 64)
            (chacha20Block key c nonce)).length ≤ 64 := by omega
        rw [List.take_of_length_le hZle, List.drop_eq_nil_of_le hZle,
          xorBlocksAux_nil, List.append_nil, hxor]
        exact List.take_of_length_le h64
      · have hinner : xorBlocksAux key nonce c (f + 1) data =
            List.zipWith Nat.xor (data.take 64) (chacha20Block key c nonce) ++
              xorBlocksAux key nonce (c + 1) f (data.drop 64) := by
          rw [xorBlocksAux, if_neg hd]
        rw [hinner]
        have hAlen' : (List.zipWith Nat.xor (data.take 64)
            (chacha20Block key c nonce)).length = 64 := by omega
        have hAne : List.zipWith Nat.xor (data.take 64) (chacha20Block key c nonce) ++
            xorBlocksAux key nonce (c + 1) f (data.drop 64) ≠ [] := by
          intro hnil
          have := congrArg List.length hnil
          simp only [List.length_append, hAlen', List.length_nil] at this
          omega
        rw [xorBlocksAux, if_neg hAne]
        rw [take_append_of_length _ _ _ hAlen', drop_append_of_length _ _ _ hAlen']
        rw [hxor, ih (data.drop 64) (c + 1) (by
          simp only [List.length_drop]
          omega)]
        exact List.take_append_drop 64 data

theorem getD_flatten_four (L : List (List Nat)) (h4 : ∀ l ∈ L, l.length = 4) :
    ∀ (i j : Nat), j < 4 → L.flatten.getD (4 * i + j) 0 = (L.getD i []).getD j 0 := by
  induction L with
  | nil => simp
  | cons l L ih =>
    intro i j hj
    have hl : l.length = 4 := h4 l (List.mem_cons_self l L)
    cases i with
    | zero =>
      simp only [List.flatten_cons, Nat.mul_zero, Nat.zero_add]
      rw [List.getD_append _ _ _ _ (by omega), List.getD_cons_zero]
    | succ i =>
      simp only [List.flatten_cons]
      rw [List.getD_append_right _ _ _ _ (by omega), List.getD_cons_succ]
      have harith : 4 * (i + 1) + j - l.length = 4 * i + j := by omega
      rw [harith]
      exact ih (fun l' hl' => h4 l' (List.mem_cons_of_mem l hl')) i j hj

theorem getD_map_range (n i : Nat) (g : Nat → List Nat) (h : i < n) :
    ((List.range n).map g).getD i [] = g i := by
  rw [List.getD_eq_getElem _ _ (by simpa using h)]
  simp

theorem putUint32LE_getD (w j : Nat) (hj : j < 4) :
    (putUint32LE w).getD j 0 = w / 2 ^ (8 * j) % 2 ^ 8 := by
  interval_cases j <;> simp [putUint32LE]

/-! ## Claim theorems -/

set_option maxRecDepth 100000 in
/-- C1: the block transform does not reproduce the published RFC 8439
keystream.  For the key of 32 zero bytes except a final 0x01, the all-zero
12-byte nonce and counter 0, `chacha20Block` outputs bytes beginning
`ef 59 69 57`, not the `76 b8 e0 ad` the specification requires. -/
theorem chacha20Block_rfc_vector_mismatch :
    (chacha20Block (List.replicate 31 0 ++ [1]) 0 (List.replicate 12 0)).take 4 =
      [0xef, 0x59, 0x69, 0x57] ∧
    ([0xef, 0x59, 0x69, 0x57] : List Nat) ≠ [0x76, 0xb8, 0xe0, 0xad] := by
  constructor
  · decide
  · decide

/-- C2: the initial state matrix built by `chacha20Block` does not have the
layout the specification states: on the key `0,1,...,31`, counter 7 and
nonce `0,1,...,11` it differs from the RFC layout (`rfcInitState`) — its
word 0 is `0x12345678` rather than the constant `0x61707865`, the key words
are big-endian and reversed, and the counter and nonce positions are
swapped. -/
theorem initState_layout_mismatch :
    initState (List.range 32) 7 (List.range 12) ≠
      rfcInitState (List.range 32) 7 (List.range 12) ∧
    (initState (List.range 32) 7 (List.range 12)).getD 0 0 = 0x12345678 ∧
    (rfcInitState (List.range 32) 7 (List.range 12)).getD 0 0 = 0x61707865 := by
  refine ⟨by decide, by decide, by decide⟩

/-- C3: `quarterRound` does not perform the add/xor/rotate sequence the
specification states: on the all-ones state and indices (0,4,8,12) it
disagrees with that sequence (`rfcQuarterRound`). -/
theorem quarterRound_rfc_mismatch :
    quarterRound (List.replicate 16 1) 0 4 8 12 ≠
      rfcQuarterRound (List.replicate 16 1) 0 4 8 12 := by
  decide

set_option maxRecDepth 100000 in
/-- C4: the round phase of `chacha20Block` (5 iterations, quarter-rounds in
the order (0,4,8,12), (3,7,11,15), (2,6,10,14), (1,5,9,13), (0,5,10,15),
(3,4,9,14), (2,7,8,13), (1,6,11,12)) is not 10 double-rounds in the
specification's column/diagonal order: the two disagree on the state
`0,1,...,15`. -/
theorem roundPhase_structure_mismatch :
    roundPhase 5 (List.range 16) ≠ claimRoundPhase 10 (List.range 16) := by
  decide

/-- C5: for every key, counter and nonce, `chacha20Block` returns exactly
64 bytes, and byte `4*i + j` is byte `j` of the little-endian serialization
of `(working word i after the round phase + initial state word i) mod 2^32`
— the feed-forward addition. -/
theorem chacha20Block_feedforward_serialization (key : List Nat) (counter : Nat)
    (nonce : List Nat) :
    (chacha20Block key counter nonce).length = 64 ∧
    ∀ i < 16, ∀ j < 4,
      (chacha20Block key counter nonce).getD (4 * i + j) 0 =
        u32 ((roundPhase 5 (initState key counter nonce)).getD i 0 +
          (initState key counter nonce).getD i 0) / 2 ^ (8 * j) % 2 ^ 8 := by
  refine ⟨chacha20Block_length key counter nonce, ?_⟩
  intro i hi j hj
  simp only [chacha20Block]
  rw [getD_flatten_four _ (by
    intro l hl
    simp only [List.mem_map] at hl
    obtain ⟨a, _, rfl⟩ := hl
    exact putUint32LE_length _) i j hj]
  rw [getD_map_range 16 i _ hi]
  exact putUint32LE_getD _ j hj

/-- C5 witness: byte 0 of the block for the all-zero key and nonce at
counter 0 is the low byte of the feed-forward sum of word 0. -/
theorem chacha20Block_feedforward_serialization_witness :
    (chacha20Block (List.replicate 32 0) 0 (List.replicate 12 0)).getD 0 0 =
      u32 ((roundPhase 5 (initState (List.replicate 32 0) 0 (List.replicate 12 0))).getD 0 0 +
        (initState (List.replicate 32 0) 0 (List.replicate 12 0)).getD 0 0) /
          2 ^ (8 * 0) % 2 ^ 8 :=
  (chacha20Block_feedforward_serialization (List.replicate 32 0) 0
    (List.replicate 12 0)).2 0 (by decide) 0 (by decide)

/-- C6: with a valid key and nonce and non-empty data, `chacha20Encrypt`
succeeds and XORs 64-byte blocks of the data with keystream blocks whose
counter starts at 1 and increments per block: output byte `i` is input byte
`i` XOR byte `i % 64` of `chacha20Block key (1 + i / 64) nonce`, so a final
partial block uses only the leading keystream bytes. -/
theorem chacha20Encrypt_block_structure (key nonce data : List Nat)
    (hk : key.length = 32) (hn : nonce.length = 12) (hd : data ≠ []) :
    ∃ out, chacha20Encrypt key nonce data = Except.ok out ∧
      out.length = data.length ∧
      ∀ i < data.length, out.getD i 0 =
        Nat.xor (data.getD i 0)
          ((chacha20Block key (1 + i / 64) nonce).getD (i % 64) 0) := by
  have hlen : data.length ≠ 0 := by
    intro h
    exact hd (List.eq_nil_of_length_eq_zero h)
  refine ⟨xorBlocks key nonce 1 data, ?_, ?_, ?_⟩
  · simp [chacha20Encrypt, hk, hn, hlen]
  · exact xorBlocksAux_length key nonce data.length data 1 (Nat.le_refl _)
  · intro i hi
    have := xorBlocksAux_getD key nonce data.length data 1 i (Nat.le_refl _) hi
    simpa [Nat.add_comm] using this

/-- C6 witness: instantiation at the all-zero key and nonce and the
100-byte input `0,1,...,99`, which spans two keystream blocks. -/
theorem chacha20Encrypt_block_structure_witness :
    ∃ out, chacha20Encrypt (List.replicate 32 0) (List.replicate 12 0)
        (List.range 100) = Except.ok out ∧
      out.length = (List.range 100).length ∧
      ∀ i < (List.range 100).length, out.getD i 0 =
        Nat.xor ((List.range 100).getD i 0)
          ((chacha20Block (List.replicate 32 0) (1 + i / 64)
            (List.replicate 12 0)).getD (i % 64) 0) :=
  chacha20Encrypt_block_structure (List.replicate 32 0) (List.replicate 12 0)
    (List.range 100) (by decide) (by decide) (by decide)

/-- C7: decrypting an encryption returns the original bytes, for every
32-byte key, 12-byte nonce and message: the two passes XOR the same
keystream and XOR is self-inverse. -/
theorem chacha20_roundtrip (key nonce m : List Nat) (hk : key.length = 32)
    (hn : nonce.length = 12) :
    (chacha20Encrypt key nonce m).bind (chacha20Decrypt key nonce) =
      Except.ok m := by
  simp only [chacha20Decrypt]
  by_cases hm : m.length = 0
  · have : m = [] := List.eq_nil_of_length_eq_zero hm
    subst this
    simp [chacha20Encrypt, hk, hn, Except.bind]
  · have h1 : chacha20Encrypt key nonce m = Except.ok (xorBlocks key nonce 1 m) := by
      simp [chacha20Encrypt, hk, hn, hm]
    have hlen : (xorBlocksAux key nonce 1 m.length m).length = m.length :=
      xorBlocksAux_length key nonce m.length m 1 (Nat.le_refl _)
    have h2 : xorBlocks key nonce 1 (xorBlocks key nonce 1 m) = m := by
      have hfuel : xorBlocks key nonce 1 (xorBlocks key nonce 1 m) =
          xorBlocksAux key nonce 1 m.length (xorBlocks key nonce 1 m) := by
        simp only [xorBlocks, hlen]
      rw [hfuel]
      exact xorBlocksAux_invol key nonce m.length m 1 (Nat.le_refl _)
    rw [h1]
    simp only [Except.bind]
    simp [chacha20Encrypt, hk, hn, hlen, hm, h2]
    intro hnil
    have hzero : (xorBlocksAux key nonce 1 m.length m).length = 0 := by
      simp only [xorBlocks] at hnil
      rw [hnil]
      rfl
    rw [hlen] at hzero
    exact absurd hzero hm

/-- C7 witness: round trip at a concrete key, nonce and 3-byte message. -/
theorem chacha20_roundtrip_witness :
    (chacha20Encrypt (List.replicate 32 7) (List.replicate 12 9) [1, 2, 3]).bind
        (chacha20Decrypt (List.replicate 32 7) (List.replicate 12 9)) =
      Except.ok [1, 2, 3] :=
  chacha20_roundtrip (List.replicate 32 7) (List.replicate 12 9) [1, 2, 3]
    (by decide) (by decide)

/-- C8: with a valid key and nonce, `chacha20Encrypt` succeeds, its output
has exactly the input's length, and the empty input yields the empty
output. -/
theorem chacha20Encrypt_length_preservation (key nonce m : List Nat)
    (hk : key.length = 32) (hn : nonce.length = 12) :
    ∃ out, chacha20Encrypt key nonce m = Except.ok out ∧
      out.length = m.length ∧ (m = [] → out = []) := by
  by_cases hm : m.length = 0
  · have hnil : m = [] := List.eq_nil_of_length_eq_zero hm
    subst hnil
    exact ⟨[], by simp [chacha20Encrypt, hk, hn], by simp, fun _ => rfl⟩
  · refine ⟨xorBlocks key nonce 1 m, by simp [chacha20Encrypt, hk, hn, hm], ?_, ?_⟩
    · exact xorBlocksAux_length key nonce m.length m 1 (Nat.le_refl _)
    · intro hnil
      exact absurd (by simp [hnil] : m.length = 0) hm

/-- C8 witness: instantiation at a concrete key, nonce and message. -/
theorem chacha20Encrypt_length_preservation_witness :
    ∃ out, chacha20Encrypt (List.replicate 32 1) (List.replicate 12 2) [5] =
        Except.ok out ∧
      out.length = [5].length ∧ ([5] = ([] : List Nat) → out = []) :=
  chacha20Encrypt_length_preservation (List.replicate 32 1) (List.replicate 12 2)
    [5] (by decide) (by decide)

/-- C9: `chacha20Encrypt` fails with an error exactly when the key is not
32 bytes or the nonce is not 12 bytes; with a 32-byte key and 12-byte nonce
it returns normally. -/
theorem chacha20Encrypt_validation (key nonce d : List Nat) :
    ((∃ e, chacha20Encrypt key nonce d = Except.error e) ↔
      key.length ≠ 32 ∨ nonce.length ≠ 12) ∧
    (key.length = 32 → nonce.length = 12 →
      ∃ out, chacha20Encrypt key nonce d = Except.ok out) := by
  unfold chacha20Encrypt
  split_ifs with h1 h2 h3 <;> simp_all

/-- C9 witness: instantiation at a 31-byte key (one byte short), a 12-byte
nonce and a 2-byte input. -/
theorem chacha20Encrypt_validation_witness :
    ((∃ e, chacha20Encrypt (List.replicate 31 0) (List.replicate 12 0) [1, 2] =
        Except.error e) ↔
      (List.replicate 31 (0 : Nat)).length ≠ 32 ∨
        (List.replicate 12 (0 : Nat)).length ≠ 12) ∧
    ((List.replicate 31 (0 : Nat)).length = 32 →
      (List.replicate 12 (0 : Nat)).length = 12 →
      ∃ out, chacha20Encrypt (List.replicate 31 0) (List.replicate 12 0) [1, 2] =
        Except.ok out) :=
  chacha20Encrypt_validation (List.replicate 31 0) (List.replicate 12 0) [1, 2]

/-- C10: for every hash function and every password-address string,
`deriveKeyFromPasswordAddress` returns exactly 32 bytes, so
`chacha20Encrypt` called with a derived key can never take its key-length
error branch. -/
theorem deriveKeyFromPasswordAddress_length (keccak : String → String)
    (pw : String) (nonce data : List Nat) :
    (deriveKeyFromPasswordAddress keccak pw).length = 32 ∧
    chacha20Encrypt (deriveKeyFromPasswordAddress keccak pw) nonce data ≠
      Except.error "ChaCha20 key must be exactly 32 bytes" := by
  have h32 : (deriveKeyFromPasswordAddress keccak pw).length = 32 := by
    simp [deriveKeyFromPasswordAddress]
  refine ⟨h32, ?_⟩
  intro h
  simp only [chacha20Encrypt, h32] at h
  split at h
  · omega
  · split at h
    · injection h with h'
      exact absurd h' (by decide)
    · split at h
      · exact Except.noConfusion h
      · exact Except.noConfusion h

/-- C10 witness: instantiation at a concrete hash function, address, nonce
and data. -/
theorem deriveKeyFromPasswordAddress_length_witness :
    (deriveKeyFromPasswordAddress (fun s => s) "0xAbCd").length = 32 ∧
    chacha20Encrypt (deriveKeyFromPasswordAddress (fun s => s) "0xAbCd")
        (List.replicate 12 0) [1] ≠
      Except.error "ChaCha20 key must be exactly 32 bytes" :=
  deriveKeyFromPasswordAddress_length (fun s => s) "0xAbCd"
    (List.replicate 12 0) [1]

end CipherNotes
